import Mathlib

/-!
Verification of the crossy CDC ingestion and merge pipeline.

The pipeline (declarative SQL) has three layers:
  - bronze ingestion: two flows insert raw JSON documents into the streaming
    table bronze_vehicle, tagged with schema_spec "mongodb_cdc" (incremental,
    continuous) or "vehicle_raw" (backfill, INSERT INTO ONCE);
  - two normalizer views, vehicle_backfill_view and vehicle_incremental_view,
    projecting the raw variant documents into typed nullable columns;
  - two AUTO CDC flows into silver_vehicle, KEYS (_id),
    APPLY AS DELETE WHEN operationType = "delete", SEQUENCE BY wallTime,
    SCD TYPE 1.

The views are embedded directly from the SQL.  The AUTO CDC merge semantics
are implemented by the platform, not by code in this repository, so the
merge engine is modelled from the specification (section 4.3); those
definitions carry a doc comment saying so.
-/

/-- A semi-structured JSON-like document value: the payload of a raw capture
record.  Objects are association lists from field names to values; the paths
the pipeline extracts traverse only object fields. -/
inductive JsonVal where
  | null
  | str (s : String)
  | num (n : Int)
  | boolean (b : Bool)
  | obj (fields : List (String × JsonVal))

/-- Field lookup on a JSON object; none when the value is not an object or
the field is absent (the SQL variant path returning NULL). -/
def jfield : JsonVal → String → Option JsonVal
  | JsonVal.obj fs, name => fs.lookup name
  | _, _ => none

/-- Nested path extraction, the embedding of the SQL variant path syntax
such as doc:documentKey._id.  Returns none when any step is missing. -/
def jget (doc : JsonVal) : List String → Option JsonVal
  | [] => some doc
  | p :: ps =>
    match jfield doc p with
    | some v => jget v ps
    | none => none

/-- cast(... as string) over a nullable variant value: strings pass through,
numbers and booleans render, null and missing give NULL.  Only the scalar
and missing cases are modelled; the platform behavior on a variant object
(rendering it to its JSON text) and the cast-failure path are outside this
embedding, and no theorem below depends on them. -/
def castString : Option JsonVal → Option String
  | some (JsonVal.str s) => some s
  | some (JsonVal.num n) => some (toString n)
  | some (JsonVal.boolean b) => some (if b then "true" else "false")
  | _ => none

/-- cast(... as int) over a nullable variant value.  As with castString,
only the numeric and missing cases are modelled; conversion of other
scalars and the cast-failure path are outside this embedding. -/
def castInt : Option JsonVal → Option Int
  | some (JsonVal.num n) => some n
  | _ => none

/-- cast(... as timestamp): timestamp values are kept as their source
strings (the view layer never orders them; ordering lives in the merge
engine model).  Parsing and the cast-failure path are outside this
embedding; only the string-valued and missing cases are modelled. -/
def castTimestampVal : Option JsonVal → Option String
  | some (JsonVal.str s) => some s
  | _ => none

/-- cast(... as date): date values are kept as their source strings, with
the same modelling scope as castTimestampVal. -/
def castDate : Option JsonVal → Option String
  | some (JsonVal.str s) => some s
  | _ => none

/-- The fixed backfill sequencing constant, the SQL literal
timestamp("2025-01-01T12:00:00") of vehicle_backfill_view. -/
def backfillWallTime : String := "2025-01-01T12:00:00"

/-- One row of bronze_vehicle: the parsed document plus its provenance tag
(schema_spec is "mongodb_cdc" for the incremental flow, "vehicle_raw" for
the backfill flow). -/
structure BronzeRecord where
  doc : JsonVal
  schema_spec : String

/-- One output row of either normalizer view: the typed nullable columns
selected by the SQL, plus the original document. -/
structure VehicleRow where
  _id : Option String
  operationType : Option String
  wallTime : Option String
  license_plate_number : Option String
  owner_name : Option String
  passenger_count : Option Int
  expiration_date : Option String
  registration_state : Option String
  vehicle_type : Option String
  doc : JsonVal

/-- The SELECT list of vehicle_backfill_view applied to one document:
columns come from top-level paths of the flat backfill document,
operationType is the literal "insert" and wallTime the fixed constant. -/
def vehicleBackfillRow (doc : JsonVal) : VehicleRow :=
  { _id := castString (jget doc ["_id"])
    license_plate_number := castString (jget doc ["license_plate_number"])
    owner_name := castString (jget doc ["owner_name"])
    passenger_count := castInt (jget doc ["passenger_count"])
    expiration_date := castDate (jget doc ["registration_details", "expiration_date"])
    registration_state := castString (jget doc ["registration_details", "state"])
    vehicle_type := castString (jget doc ["vehicle_type"])
    operationType := some "insert"
    wallTime := some backfillWallTime
    doc := doc }

/-- The SELECT list of vehicle_incremental_view applied to one document:
the key comes from the nested change-event path documentKey._id, the
operation type and wall time from explicit envelope fields, and the entity
columns from the nested fullDocument payload. -/
def vehicleIncrementalRow (doc : JsonVal) : VehicleRow :=
  { _id := castString (jget doc ["documentKey", "_id"])
    operationType := castString (jget doc ["operationType"])
    wallTime := castTimestampVal (jget doc ["wallTime"])
    license_plate_number := castString (jget doc ["fullDocument", "license_plate_number"])
    owner_name := castString (jget doc ["fullDocument", "owner_name"])
    passenger_count := castInt (jget doc ["fullDocument", "passenger_count"])
    expiration_date := castDate (jget doc ["fullDocument", "registration_details", "expiration_date"])
    registration_state := castString (jget doc ["fullDocument", "registration_details", "state"])
    vehicle_type := castString (jget doc ["fullDocument", "vehicle_type"])
    doc := doc }

/-- vehicle_backfill_view over the bronze table: WHERE schema_spec =
"vehicle_raw", then the SELECT list, one output row per matching record. -/
def vehicleBackfillView (rs : List BronzeRecord) : List VehicleRow :=
  (rs.filter (fun r => r.schema_spec == "vehicle_raw")).map
    (fun r => vehicleBackfillRow r.doc)

/-- vehicle_incremental_view over the bronze table: WHERE schema_spec =
"mongodb_cdc", then the SELECT list, one output row per matching record. -/
def vehicleIncrementalView (rs : List BronzeRecord) : List VehicleRow :=
  (rs.filter (fun r => r.schema_spec == "mongodb_cdc")).map
    (fun r => vehicleIncrementalRow r.doc)

/-- The operation a row is applied as by the AUTO CDC flows, from the clause
APPLY AS DELETE WHEN operationType = "delete": a NULL or non-delete
operationType is applied as an upsert. -/
inductive Operation where
  | upsert
  | delete
deriving DecidableEq

/-- The APPLY AS DELETE WHEN operationType = "delete" dispatch of both
AUTO CDC flows. -/
def rowOperation (row : VehicleRow) : Operation :=
  if row.operationType == some "delete" then Operation.delete else Operation.upsert

/-- Modelled from the spec: the normalized pending change consumed by the
merge engine (the AUTO CDC implementation is not part of this repository,
only its declaration is).  entityKey is the KEYS (_id) column, sequence the
SEQUENCE BY wallTime ordering value as a natural number, fields the payload
columns. -/
structure PendingChange where
  entityKey : String
  operation : Operation
  sequence : Nat
  fields : List (String × JsonVal)

/-- Modelled from the spec: the per-key state of the silver target table.
A key is absent (never written), live with its current fields, or
tombstoned by a delete; live and tombstoned rows retain the sequence of
the last applied change. -/
inductive KeyState where
  | absent
  | live (fields : List (String × JsonVal)) (lastSequence : Nat)
  | tombstone (lastSequence : Nat)

/-- The last applied sequence of a key state; none when the key was never
written. -/
def presSeq : KeyState → Option Nat
  | KeyState.absent => none
  | KeyState.live _ m => some m
  | KeyState.tombstone m => some m

/-- Modelled from the spec: the state a single change writes when it is
applied: an upsert overwrites the row with its fields, a delete tombstones
it; either way lastSequence becomes the change sequence. -/
def applyOp (c : PendingChange) : KeyState :=
  match c.operation with
  | Operation.upsert => KeyState.live c.fields c.sequence
  | Operation.delete => KeyState.tombstone c.sequence

/-- Modelled from the spec: Apply for one key (section 4.3).  When the key
is absent or the change sequence exceeds the stored lastSequence the change
is applied; otherwise it is a stale no-op. -/
def applyK (s : KeyState) (c : PendingChange) : KeyState :=
  match s with
  | KeyState.absent => applyOp c
  | KeyState.live _ m => if m < c.sequence then applyOp c else s
  | KeyState.tombstone m => if m < c.sequence then applyOp c else s

/-- Modelled from the spec: the silver target table, one row per entityKey. -/
def Table : Type := String → KeyState

/-- Modelled from the spec: applying one pending change to the table
touches exactly the row of its entityKey. -/
def applyChange (t : Table) (c : PendingChange) : Table :=
  fun k => if k = c.entityKey then applyK (t k) c else t k

/-- The table with no rows. -/
def emptyTable : Table := fun _ => KeyState.absent

/-- Replaying a list of pending changes through the merge engine in order. -/
def mergeAll (t : Table) (l : List PendingChange) : Table :=
  l.foldl applyChange t

lemma mergeAll_nil (t : Table) : mergeAll t [] = t := rfl

lemma mergeAll_cons (t : Table) (c : PendingChange) (l : List PendingChange) :
    mergeAll t (c :: l) = mergeAll (applyChange t c) l := rfl

lemma presSeq_applyOp (c : PendingChange) : presSeq (applyOp c) = some c.sequence := by
  cases hc : c.operation <;> simp [applyOp, hc, presSeq]

lemma applyK_stale (s : KeyState) (c : PendingChange) (m : Nat)
    (hm : presSeq s = some m) (hle : c.sequence ≤ m) : applyK s c = s := by
  cases s with
  | absent => simp [presSeq] at hm
  | live f n =>
    simp only [presSeq, Option.some.injEq] at hm
    subst hm
    simp [applyK, Nat.not_lt.mpr hle]
  | tombstone n =>
    simp only [presSeq, Option.some.injEq] at hm
    subst hm
    simp [applyK, Nat.not_lt.mpr hle]

lemma applyK_fresh (s : KeyState) (c : PendingChange)
    (h : ∀ m, presSeq s = some m → m < c.sequence) : applyK s c = applyOp c := by
  cases s with
  | absent => rfl
  | live f n => simp [applyK, h n rfl]
  | tombstone n => simp [applyK, h n rfl]

lemma presSeq_applyK_cases (s : KeyState) (c : PendingChange) :
    presSeq (applyK s c) = presSeq s ∨ presSeq (applyK s c) = some c.sequence := by
  cases s with
  | absent => right; simp [applyK, presSeq_applyOp]
  | live f n =>
    by_cases h : n < c.sequence
    · right; simp [applyK, h, presSeq_applyOp]
    · left; simp [applyK, h]
  | tombstone n =>
    by_cases h : n < c.sequence
    · right; simp [applyK, h, presSeq_applyOp]
    · left; simp [applyK, h]

lemma presSeq_applyK_mono (s : KeyState) (c : PendingChange) (m : Nat)
    (hm : presSeq s = some m) :
    ∃ n, presSeq (applyK s c) = some n ∧ m ≤ n := by
  cases s with
  | absent => simp [presSeq] at hm
  | live f n =>
    simp only [presSeq, Option.some.injEq] at hm
    by_cases h : n < c.sequence
    · exact ⟨c.sequence, by simp [applyK, h, presSeq_applyOp],
        by rw [← hm]; exact Nat.le_of_lt h⟩
    · exact ⟨n, by simp [applyK, h, presSeq], Nat.le_of_eq hm.symm⟩
  | tombstone n =>
    simp only [presSeq, Option.some.injEq] at hm
    by_cases h : n < c.sequence
    · exact ⟨c.sequence, by simp [applyK, h, presSeq_applyOp],
        by rw [← hm]; exact Nat.le_of_lt h⟩
    · exact ⟨n, by simp [applyK, h, presSeq], Nat.le_of_eq hm.symm⟩

lemma presSeq_applyK_ge (s : KeyState) (c : PendingChange) :
    ∃ n, presSeq (applyK s c) = some n ∧ c.sequence ≤ n := by
  cases s with
  | absent => exact ⟨c.sequence, by simp [applyK, presSeq_applyOp], Nat.le_refl _⟩
  | live f m =>
    by_cases h : m < c.sequence
    · exact ⟨c.sequence, by simp [applyK, h, presSeq_applyOp], Nat.le_refl _⟩
    · exact ⟨m, by simp [applyK, h, presSeq], Nat.not_lt.mp h⟩
  | tombstone m =>
    by_cases h : m < c.sequence
    · exact ⟨c.sequence, by simp [applyK, h, presSeq_applyOp], Nat.le_refl _⟩
    · exact ⟨m, by simp [applyK, h, presSeq], Nat.not_lt.mp h⟩

lemma applyChange_key (t : Table) (c : PendingChange) :
    applyChange t c c.entityKey = applyK (t c.entityKey) c := by
  simp [applyChange]

lemma applyChange_other (t : Table) (c : PendingChange) (k : String)
    (hk : k ≠ c.entityKey) : applyChange t c k = t k := by
  simp [applyChange, hk]

lemma applyChange_stale (t : Table) (c : PendingChange) (m : Nat)
    (hm : presSeq (t c.entityKey) = some m) (hle : c.sequence ≤ m) :
    applyChange t c = t := by
  funext k
  by_cases hk : k = c.entityKey
  · subst hk
    rw [applyChange_key, applyK_stale _ _ m hm hle]
  · exact applyChange_other t c k hk

lemma presSeq_applyChange_mono (t : Table) (c : PendingChange) (k : String) (m : Nat)
    (hm : presSeq (t k) = some m) :
    ∃ n, presSeq (applyChange t c k) = some n ∧ m ≤ n := by
  by_cases hk : k = c.entityKey
  · subst hk
    rw [applyChange_key]
    exact presSeq_applyK_mono _ _ _ hm
  · rw [applyChange_other t c k hk]
    exact ⟨m, hm, Nat.le_refl m⟩

lemma presSeq_mergeAll_mono (l : List PendingChange) :
    ∀ (t : Table) (k : String) (m : Nat), presSeq (t k) = some m →
      ∃ n, presSeq (mergeAll t l k) = some n ∧ m ≤ n := by
  induction l with
  | nil => exact fun t k m hm => ⟨m, hm, Nat.le_refl m⟩
  | cons c tl ih =>
    intro t k m hm
    rw [mergeAll_cons]
    obtain ⟨n1, hn1, hmn1⟩ := presSeq_applyChange_mono t c k m hm
    obtain ⟨n, hn, hn1n⟩ := ih (applyChange t c) k n1 hn1
    exact ⟨n, hn, Nat.le_trans hmn1 hn1n⟩

lemma presSeq_mergeAll_covers (l : List PendingChange) :
    ∀ (t : Table) (c : PendingChange), c ∈ l →
      ∃ n, presSeq (mergeAll t l c.entityKey) = some n ∧ c.sequence ≤ n := by
  induction l with
  | nil => intro t c hc; cases hc
  | cons d tl ih =>
    intro t c hc
    rw [mergeAll_cons]
    rcases List.mem_cons.mp hc with hcd | hctl
    · subst hcd
      obtain ⟨n1, hn1, hcn1⟩ := presSeq_applyK_ge (t c.entityKey) c
      rw [← applyChange_key] at hn1
      obtain ⟨n, hn, hn1n⟩ := presSeq_mergeAll_mono tl (applyChange t c) c.entityKey n1 hn1
      exact ⟨n, hn, Nat.le_trans hcn1 hn1n⟩
    · exact ih (applyChange t d) c hctl

lemma mergeAll_stale (l : List PendingChange) :
    ∀ t : Table,
      (∀ c ∈ l, ∃ m, presSeq (t c.entityKey) = some m ∧ c.sequence ≤ m) →
      mergeAll t l = t := by
  induction l with
  | nil => exact fun t _ => rfl
  | cons c tl ih =>
    intro t h
    obtain ⟨m, hm, hle⟩ := h c (List.mem_cons_self c tl)
    rw [mergeAll_cons, applyChange_stale t c m hm hle]
    exact ih t (fun d hd => h d (List.mem_cons_of_mem c hd))

lemma mergeAll_replay (t : Table) (l : List PendingChange) :
    mergeAll (mergeAll t l) l = mergeAll t l :=
  mergeAll_stale l _ (fun c hc => presSeq_mergeAll_covers l t c hc)

lemma mergeAll_frozen (l : List PendingChange) :
    ∀ (t : Table) (k : String), (∀ d ∈ l, d.entityKey ≠ k) →
      mergeAll t l k = t k := by
  induction l with
  | nil => exact fun t k _ => rfl
  | cons c tl ih =>
    intro t k h
    rw [mergeAll_cons, ih (applyChange t c) k (fun d hd => h d (List.mem_cons_of_mem c hd)),
      applyChange_other t c k (fun he => h c (List.mem_cons_self c tl) he.symm)]

lemma mergeAll_max (l : List PendingChange) :
    ∀ (t : Table) (k : String) (c : PendingChange),
      c ∈ l → (∀ d ∈ l, d.entityKey = k) →
      (∀ d ∈ l, d ≠ c → d.sequence < c.sequence) →
      (∀ m, presSeq (t k) = some m → m < c.sequence) →
      mergeAll t l k = applyOp c := by
  induction l with
  | nil => intro t k c hc; cases hc
  | cons d tl ih =>
    intro t k c hc hk hmax ht
    by_cases hdc : d = c
    · subst hdc
      have hkd : d.entityKey = k := hk d (List.mem_cons_self d tl)
      rw [mergeAll_cons]
      have happ : applyChange t d k = applyOp d := by
        rw [← hkd, applyChange_key]
        exact applyK_fresh _ _ (by rw [hkd]; exact ht)
      have hstale : mergeAll (applyChange t d) tl = applyChange t d := by
        apply mergeAll_stale
        intro e he
        refine ⟨d.sequence, ?_, ?_⟩
        · rw [hk e (List.mem_cons_of_mem d he), happ, presSeq_applyOp]
        · by_cases hed : e = d
          · subst hed; exact Nat.le_refl _
          · exact Nat.le_of_lt (hmax e (List.mem_cons_of_mem d he) hed)
      rw [hstale, happ]
    · have hctl : c ∈ tl := by
        rcases List.mem_cons.mp hc with h | h
        · exact absurd h.symm hdc
        · exact h
      rw [mergeAll_cons]
      apply ih (applyChange t d) k c hctl
        (fun e he => hk e (List.mem_cons_of_mem d he))
        (fun e he hec => hmax e (List.mem_cons_of_mem d he) hec)
      intro m hm
      have hkd : d.entityKey = k := hk d (List.mem_cons_self d tl)
      rw [← hkd, applyChange_key] at hm
      rcases presSeq_applyK_cases (t d.entityKey) d with hcase | hcase
      · rw [hcase, hkd] at hm
        exact ht m hm
      · rw [hcase] at hm
        cases hm
        exact hmax d (List.mem_cons_self d tl) hdc

lemma exists_max_seq :
    ∀ (l : List PendingChange), l ≠ [] →
      ∃ c ∈ l, ∀ d ∈ l, d.sequence ≤ c.sequence := by
  intro l
  induction l with
  | nil => intro h; exact absurd rfl h
  | cons c tl ih =>
    intro _
    rcases tl with _ | ⟨d, tl2⟩
    · exact ⟨c, List.mem_cons_self c [], by
        intro e he
        rcases List.mem_cons.mp he with h | h
        · subst h; exact Nat.le_refl _
        · cases h⟩
    · obtain ⟨c2, hc2mem, hc2max⟩ := ih (by simp)
      by_cases hcmp : c.sequence ≤ c2.sequence
      · refine ⟨c2, List.mem_cons_of_mem c hc2mem, ?_⟩
        intro e he
        rcases List.mem_cons.mp he with h | h
        · subst h; exact hcmp
        · exact hc2max e h
      · refine ⟨c, List.mem_cons_self c _, ?_⟩
        intro e he
        rcases List.mem_cons.mp he with h | h
        · subst h; exact Nat.le_refl _
        · exact Nat.le_trans (hc2max e h) (Nat.le_of_not_le hcmp)

/-- Modelled from the spec: the bronze capture state.  records is the
append-only raw capture log; backfillDone records whether the one-time
backfill ingestion flow (INSERT INTO ONCE in the source) has already
consumed its input. -/
structure BronzeState where
  records : List BronzeRecord
  backfillDone : Bool

/-- Modelled from the spec: one run of bronze_vehicle_backfill_flow
(INSERT INTO ONCE): the first run appends every historical document tagged
"vehicle_raw"; once consumed, later runs insert nothing. -/
def bronzeBackfillIngest (docs : List JsonVal) (s : BronzeState) : BronzeState :=
  if s.backfillDone then s
  else { records := s.records ++ docs.map (fun d => ⟨d, "vehicle_raw"⟩),
         backfillDone := true }

/-- C1: replaying a finite set of changes for one entityKey through the
merge engine in any permutation of pairwise-distinct sequences yields the
same final table, and the final row of that key is determined solely by
the change with the maximum sequence; in particular a backfill upsert and
an incremental upsert with a strictly larger sequence for the same key
leave the incremental fields in the row in either application order. -/
theorem merge_order_independent :
    (∀ (k : String) (l l2 : List PendingChange), l.Perm l2 →
        (∀ d ∈ l, d.entityKey = k) →
        l.Pairwise (fun a b => a.sequence ≠ b.sequence) →
        mergeAll emptyTable l = mergeAll emptyTable l2)
    ∧ (∀ (k : String) (l : List PendingChange) (c : PendingChange),
        c ∈ l → (∀ d ∈ l, d.entityKey = k) →
        (∀ d ∈ l, d ≠ c → d.sequence < c.sequence) →
        mergeAll emptyTable l k = applyOp c)
    ∧ (∀ (k : String) (fb fi : List (String × JsonVal)) (sb si : Nat), sb < si →
        mergeAll emptyTable
            [⟨k, Operation.upsert, sb, fb⟩, ⟨k, Operation.upsert, si, fi⟩] k
          = KeyState.live fi si
        ∧ mergeAll emptyTable
            [⟨k, Operation.upsert, si, fi⟩, ⟨k, Operation.upsert, sb, fb⟩] k
          = KeyState.live fi si) := by
  refine ⟨?_, ?_, ?_⟩
  · intro k l l2 hperm hk hdist
    rcases hl : l with _ | ⟨c0, tl0⟩
    · rw [hl] at hperm
      rw [hperm.symm.eq_nil]
    · rw [← hl]
      have hne : l ≠ [] := by rw [hl]; exact List.cons_ne_nil c0 tl0
      obtain ⟨c, hcmem, hcmax⟩ := exists_max_seq l hne
      have hsymm : Symmetric (fun a b : PendingChange => a.sequence ≠ b.sequence) :=
        fun _ _ h => Ne.symm h
      have hstrict : ∀ d ∈ l, d ≠ c → d.sequence < c.sequence := by
        intro d hd hdc
        exact Nat.lt_of_le_of_ne (hcmax d hd) (hdist.forall hsymm hd hcmem hdc)
      have htriv : ∀ m, presSeq (emptyTable k) = some m → m < c.sequence := by
        intro m hm
        simp [emptyTable, presSeq] at hm
      funext k2
      by_cases hk2 : k2 = k
      · subst hk2
        rw [mergeAll_max l emptyTable k2 c hcmem hk hstrict htriv,
          mergeAll_max l2 emptyTable k2 c (hperm.subset hcmem)
            (fun d hd => hk d (hperm.symm.subset hd))
            (fun d hd hdc => hstrict d (hperm.symm.subset hd) hdc) htriv]
      · rw [mergeAll_frozen l emptyTable k2
            (fun d hd he => hk2 (he.symm.trans (hk d hd))),
          mergeAll_frozen l2 emptyTable k2
            (fun d hd he => hk2 (he.symm.trans (hk d (hperm.symm.subset hd))))]
  · intro k l c hc hk hmax
    exact mergeAll_max l emptyTable k c hc hk hmax
      (by intro m hm; simp [emptyTable, presSeq] at hm)
  · intro k fb fi sb si h
    constructor
    · show applyChange (applyChange emptyTable _) _ k = _
      simp [applyChange, applyK, applyOp, emptyTable, h]
    · show applyChange (applyChange emptyTable _) _ k = _
      simp [applyChange, applyK, applyOp, emptyTable, Nat.lt_asymm h]

/-- C1 witness: with sequences 1 < 2 for key V1, both application orders
leave the sequence-2 upsert in the row. -/
theorem merge_order_independent_witness :
    mergeAll emptyTable
        [⟨"V1", Operation.upsert, 1, []⟩, ⟨"V1", Operation.upsert, 2, []⟩] "V1"
      = KeyState.live [] 2
    ∧ mergeAll emptyTable
        [⟨"V1", Operation.upsert, 2, []⟩, ⟨"V1", Operation.upsert, 1, []⟩] "V1"
      = KeyState.live [] 2 :=
  merge_order_independent.2.2 "V1" [] [] 1 2 (by decide)

/-- C2: from the empty table, a delete at sequence 5 followed by an upsert
at sequence 10 for the same key resurrects the entity with the upsert
fields, while an upsert at sequence 3 after the delete at sequence 5 is a
no-op leaving the tombstone; in general an applied delete retains its own
sequence as lastSequence, and an upsert whose sequence does not exceed the
tombstone sequence leaves the table unchanged. -/
theorem delete_resurrection :
    (∀ (k : String) (f : List (String × JsonVal)),
        mergeAll emptyTable
            [⟨k, Operation.delete, 5, []⟩, ⟨k, Operation.upsert, 10, f⟩] k
          = KeyState.live f 10)
    ∧ (∀ (k : String) (f : List (String × JsonVal)),
        mergeAll emptyTable
            [⟨k, Operation.delete, 5, []⟩, ⟨k, Operation.upsert, 3, f⟩] k
          = KeyState.tombstone 5)
    ∧ (∀ (t : Table) (c : PendingChange), c.operation = Operation.delete →
        (∀ m, presSeq (t c.entityKey) = some m → m < c.sequence) →
        applyChange t c c.entityKey = KeyState.tombstone c.sequence)
    ∧ (∀ (t : Table) (c : PendingChange) (m : Nat),
        t c.entityKey = KeyState.tombstone m → c.sequence ≤ m →
        applyChange t c = t) := by
  refine ⟨?_, ?_, ?_, ?_⟩
  · intro k f
    show applyChange (applyChange emptyTable _) _ k = _
    simp [applyChange, applyK, applyOp, emptyTable]
  · intro k f
    show applyChange (applyChange emptyTable _) _ k = _
    simp [applyChange, applyK, applyOp, emptyTable]
  · intro t c hop ht
    rw [applyChange_key, applyK_fresh _ _ ht, applyOp, hop]
  · intro t c m hm hle
    exact applyChange_stale t c m (by rw [hm]; rfl) hle

/-- C2 witness: an upsert at sequence 3 against a key tombstoned at
sequence 5 leaves the table unchanged. -/
theorem delete_resurrection_witness :
    applyChange
        (fun k => if k = "V1" then KeyState.tombstone 5 else KeyState.absent)
        ⟨"V1", Operation.upsert, 3, []⟩
      = fun k => if k = "V1" then KeyState.tombstone 5 else KeyState.absent :=
  delete_resurrection.2.2.2 _ _ 5 (by simp) (by decide)

/-- C3: applying the same pending change twice yields the same table as
applying it once, and any change whose sequence is at most the existing
lastSequence of its key leaves the table entirely unchanged. -/
theorem apply_idempotent :
    (∀ (t : Table) (c : PendingChange),
        applyChange (applyChange t c) c = applyChange t c)
    ∧ (∀ (t : Table) (c : PendingChange) (m : Nat),
        presSeq (t c.entityKey) = some m → c.sequence ≤ m →
        applyChange t c = t) := by
  constructor
  · intro t c
    obtain ⟨n, hn, hcn⟩ := presSeq_applyK_ge (t c.entityKey) c
    exact applyChange_stale _ c n (by rw [applyChange_key]; exact hn) hcn
  · intro t c m hm hle
    exact applyChange_stale t c m hm hle

/-- C3 witness: a stale upsert at sequence 2 against a key live at
sequence 7 leaves the table unchanged. -/
theorem apply_idempotent_witness :
    applyChange
        (fun k => if k = "V1" then KeyState.live [] 7 else KeyState.absent)
        ⟨"V1", Operation.upsert, 2, []⟩
      = fun k => if k = "V1" then KeyState.live [] 7 else KeyState.absent :=
  apply_idempotent.2 _ _ 7 (by simp [presSeq]) (by decide)

/-- C4: lastSequence is monotonically non-decreasing: one applied change,
and any replayed list of changes, can only keep or increase the stored
lastSequence of every key. -/
theorem lastSequence_monotone :
    (∀ (t : Table) (c : PendingChange) (k : String) (m : Nat),
        presSeq (t k) = some m →
        ∃ n, presSeq (applyChange t c k) = some n ∧ m ≤ n)
    ∧ (∀ (t : Table) (l : List PendingChange) (k : String) (m : Nat),
        presSeq (t k) = some m →
        ∃ n, presSeq (mergeAll t l k) = some n ∧ m ≤ n) :=
  ⟨fun t c k m hm => presSeq_applyChange_mono t c k m hm,
   fun t l k m hm => presSeq_mergeAll_mono l t k m hm⟩

/-- C4 witness: after a delete at sequence 9 hits a key live at sequence 4,
the stored lastSequence has not decreased. -/
theorem lastSequence_monotone_witness :
    ∃ n, presSeq
        (applyChange
          (fun k => if k = "V1" then KeyState.live [] 4 else KeyState.absent)
          ⟨"V1", Operation.delete, 9, []⟩ "V1")
      = some n ∧ 4 ≤ n :=
  lastSequence_monotone.1 _ ⟨"V1", Operation.delete, 9, []⟩ "V1" 4 (by simp [presSeq])

/-- C7: the backfill path is idempotent end to end: re-running the
one-time bronze backfill ingestion after it has consumed its input changes
nothing; a set of changes that are all stale for their keys merges as a
no-op; and replaying any list of changes a second time over the merged
table leaves it unchanged. -/
theorem backfill_rerun_idempotent :
    (∀ (docs : List JsonVal) (s : BronzeState),
        bronzeBackfillIngest docs (bronzeBackfillIngest docs s)
          = bronzeBackfillIngest docs s)
    ∧ (∀ (t : Table) (bl : List PendingChange),
        (∀ c ∈ bl, ∃ m, presSeq (t c.entityKey) = some m ∧ c.sequence ≤ m) →
        mergeAll t bl = t)
    ∧ (∀ (t : Table) (bl : List PendingChange),
        mergeAll (mergeAll t bl) bl = mergeAll t bl) := by
  refine ⟨?_, ?_, ?_⟩
  · intro docs s
    by_cases h : s.backfillDone
    · simp [bronzeBackfillIngest, h]
    · simp [bronzeBackfillIngest, h]
  · intro t bl h
    exact mergeAll_stale bl t h
  · intro t bl
    exact mergeAll_replay t bl

/-- C7 witness: replaying a backfill upsert at sequence 1 against a key
already live at sequence 1 is a no-op. -/
theorem backfill_rerun_idempotent_witness :
    mergeAll
        (fun k => if k = "V1" then KeyState.live [] 1 else KeyState.absent)
        [⟨"V1", Operation.upsert, 1, []⟩]
      = fun k => if k = "V1" then KeyState.live [] 1 else KeyState.absent :=
  backfill_rerun_idempotent.2.1 _ _
    (by
      intro c hc
      rcases List.mem_cons.mp hc with h | h
      · subst h; exact ⟨1, by simp [presSeq], Nat.le_refl 1⟩
      · cases h)

/-- C5: the incremental normalizer extracts the entity key from the nested
path documentKey._id, the sequence from the envelope field wallTime, and
the entity columns from the nested fullDocument payload; a row is applied
as a delete exactly when its extracted operationType is the string
"delete", and as an upsert in every other case, a NULL operationType
included. -/
theorem normalize_incremental_extraction :
    ∀ doc : JsonVal,
      (vehicleIncrementalRow doc)._id = castString (jget doc ["documentKey", "_id"])
      ∧ (vehicleIncrementalRow doc).wallTime = castTimestampVal (jget doc ["wallTime"])
      ∧ (vehicleIncrementalRow doc).license_plate_number
          = castString (jget doc ["fullDocument", "license_plate_number"])
      ∧ (vehicleIncrementalRow doc).owner_name
          = castString (jget doc ["fullDocument", "owner_name"])
      ∧ (vehicleIncrementalRow doc).passenger_count
          = castInt (jget doc ["fullDocument", "passenger_count"])
      ∧ (vehicleIncrementalRow doc).expiration_date
          = castDate (jget doc ["fullDocument", "registration_details", "expiration_date"])
      ∧ (vehicleIncrementalRow doc).registration_state
          = castString (jget doc ["fullDocument", "registration_details", "state"])
      ∧ (vehicleIncrementalRow doc).vehicle_type
          = castString (jget doc ["fullDocument", "vehicle_type"])
      ∧ (rowOperation (vehicleIncrementalRow doc) = Operation.delete
          ↔ castString (jget doc ["operationType"]) = some "delete") := by
  intro doc
  refine ⟨rfl, rfl, rfl, rfl, rfl, rfl, rfl, rfl, ?_⟩
  by_cases h : castString (jget doc ["operationType"]) = some "delete"
  · simp [rowOperation, vehicleIncrementalRow, h]
  · simp [rowOperation, vehicleIncrementalRow, h]

/-- C6: every backfill record is normalized with the literal operationType
"insert", hence is applied as an upsert (the delete branch of the backfill
flow is never taken), and carries the one fixed configured wallTime
constant, identical across all backfill records. -/
theorem normalize_backfill_constant :
    ∀ d d2 : JsonVal,
      (vehicleBackfillRow d).operationType = some "insert"
      ∧ rowOperation (vehicleBackfillRow d) = Operation.upsert
      ∧ (vehicleBackfillRow d).wallTime = some backfillWallTime
      ∧ (vehicleBackfillRow d).wallTime = (vehicleBackfillRow d2).wallTime := by
  intro d d2
  refine ⟨rfl, ?_, rfl, rfl⟩
  simp [rowOperation, vehicleBackfillRow]

/-- C8 counterexample: the empty document ingested with incremental
provenance lacks both the entityKey source (documentKey._id) and the
sequence source (wallTime), yet the incremental view does not skip it or
signal an error: it emits a normalized row whose key and sequence columns
are NULL. -/
theorem normalize_incremental_no_error_counterexample :
    vehicleIncrementalView [⟨JsonVal.obj [], "mongodb_cdc"⟩]
        = [vehicleIncrementalRow (JsonVal.obj [])]
      ∧ (vehicleIncrementalRow (JsonVal.obj []))._id = none
      ∧ (vehicleIncrementalRow (JsonVal.obj [])).wallTime = none :=
  ⟨rfl, rfl, rfl⟩

/-- C8 amended: the incremental normalizer never signals a malformed-record
error: a record lacking the entityKey or sequence source still yields a
normalized row with NULL in those columns, and the record does not stop
the remaining records from being normalized. -/
theorem normalize_incremental_no_error :
    ∀ (doc : JsonVal) (rs : List BronzeRecord),
      (jget doc ["documentKey", "_id"] = none → (vehicleIncrementalRow doc)._id = none)
      ∧ (jget doc ["wallTime"] = none → (vehicleIncrementalRow doc).wallTime = none)
      ∧ vehicleIncrementalView (⟨doc, "mongodb_cdc"⟩ :: rs)
          = vehicleIncrementalRow doc :: vehicleIncrementalView rs := by
  intro doc rs
  refine ⟨?_, ?_, ?_⟩
  · intro h
    show castString (jget doc ["documentKey", "_id"]) = none
    rw [h]
    rfl
  · intro h
    show castTimestampVal (jget doc ["wallTime"]) = none
    rw [h]
    rfl
  · simp [vehicleIncrementalView, List.filter_cons]

/-- C8 amended witness: the record missing documentKey and wallTime is
normalized to a row with NULL key. -/
theorem normalize_incremental_no_error_witness :
    (vehicleIncrementalRow (JsonVal.obj [("a", JsonVal.null)]))._id = none :=
  (normalize_incremental_no_error (JsonVal.obj [("a", JsonVal.null)]) []).1 rfl

/-- C9: each normalizer view processes only records carrying its own
provenance tag: a record whose schema_spec is not the tag of a projection
contributes no row through that projection, a record tagged for the other
projection included, while a correctly tagged record contributes exactly
its normalized row. -/
theorem provenance_separation :
    ∀ (r : BronzeRecord) (rs : List BronzeRecord),
      (r.schema_spec ≠ "vehicle_raw" →
        vehicleBackfillView (r :: rs) = vehicleBackfillView rs)
      ∧ (r.schema_spec ≠ "mongodb_cdc" →
        vehicleIncrementalView (r :: rs) = vehicleIncrementalView rs)
      ∧ (r.schema_spec = "mongodb_cdc" →
        vehicleBackfillView (r :: rs) = vehicleBackfillView rs)
      ∧ (r.schema_spec = "vehicle_raw" →
        vehicleIncrementalView (r :: rs) = vehicleIncrementalView rs)
      ∧ (r.schema_spec = "vehicle_raw" →
        vehicleBackfillView (r :: rs) = vehicleBackfillRow r.doc :: vehicleBackfillView rs)
      ∧ (r.schema_spec = "mongodb_cdc" →
        vehicleIncrementalView (r :: rs)
          = vehicleIncrementalRow r.doc :: vehicleIncrementalView rs) := by
  intro r rs
  refine ⟨?_, ?_, ?_, ?_, ?_, ?_⟩
  · intro h
    simp [vehicleBackfillView, List.filter_cons, h]
  · intro h
    simp [vehicleIncrementalView, List.filter_cons, h]
  · intro h
    simp [vehicleBackfillView, List.filter_cons, h]
  · intro h
    simp [vehicleIncrementalView, List.filter_cons, h]
  · intro h
    simp [vehicleBackfillView, List.filter_cons, h]
  · intro h
    simp [vehicleIncrementalView, List.filter_cons, h]

/-- C9 witness: a record tagged "mongodb_cdc" contributes nothing to the
backfill view. -/
theorem provenance_separation_witness :
    vehicleBackfillView [⟨JsonVal.obj [], "mongodb_cdc"⟩] = vehicleBackfillView [] :=
  (provenance_separation ⟨JsonVal.obj [], "mongodb_cdc"⟩ []).1 (by decide)

